import Mathlib

/-!
Shallow embedding of the master-side replication core
(`src/tendisplus/replication/mpov.cpp`): the binlog batcher, the wire
codec, the push routine's position bookkeeping, the `INCRSYNC`
registration handshake and the full-sync supplier.  Collaborator
interfaces that are not part of the repository slice (binlog cursor,
store backup, argument parsing) are modelled from the spec and say so in
their doc comments.
-/

namespace Tendis

/-- One binlog row.  Modelled from the spec: `ReplLog` decomposes into a
key exposing `txnId` and a value exposing an opaque operation payload of
known byte length (`opSize` stands for `getOpValue().size()`); `encKey`
and `encVal` are the raw encoded bytes of `ReplLog::encode()`, opaque to
this layer. -/
structure ReplLog where
  txnId : Nat
  opSize : Nat
  encKey : String
  encVal : String
deriving DecidableEq

/-- `suggestBatch` of `ReplManager::masterSendBinlog` (mpov.cpp:103). -/
def suggestBatch : Nat := 64

/-- `suggestBytes` of `ReplManager::masterSendBinlog` (mpov.cpp:104). -/
def suggestBytes : Nat := 16 * 1024 * 1024

/-- Modelled from the spec: `Txn.create_binlog_cursor(fromId)` seeks the
durable, totally-ordered binlog to the first row with `txnId ≥ fromId`
and `Cursor.next()` then yields the remaining rows in log order until
`EXHAUST`.  On a log ordered by `txnId` the rows the cursor yields are
exactly those with `txnId ≥ fromId`. -/
def cursorFrom (binlog : List ReplLog) (fromId : Nat) : List ReplLog :=
  binlog.filter (fun r => decide (fromId ≤ r.txnId))

/-- The batching loop of `ReplManager::masterSendBinlog`
(mpov.cpp:122-146).  `cnt`, `nowId` and `est` are the loop variables
`cnt`, `nowId` and `estimateSize`; the stream argument is what the
cursor has left to yield, and the returned list is the `binlogs` vector.
The row read in the iteration that breaks is consumed but not appended. -/
def gather : List ReplLog → Nat → Nat → Nat → List ReplLog
  | [], _, _, _ => []
  | r :: rest, cnt, nowId, est =>
    if nowId = 0 ∨ nowId ≠ r.txnId then
      if suggestBatch ≤ cnt + 1 ∨ suggestBytes ≤ est + r.opSize then []
      else r :: gather rest (cnt + 1) r.txnId (est + r.opSize)
    else r :: gather rest (cnt + 1) nowId (est + r.opSize)

def crlf : String := "\r\n"

/-- Modelled from the spec: `Command::fmtMultiBulkLen` emits the RESP
multi-bulk header `*{n}`. -/
def fmtMultiBulkLen (n : Nat) : String := "*" ++ toString n ++ crlf

/-- Modelled from the spec: `Command::fmtBulk` emits a RESP bulk string
`${len}` followed by the raw bytes. -/
def fmtBulk (s : String) : String :=
  "$" ++ toString s.length ++ crlf ++ s ++ crlf

/-- The frame built by `ReplManager::masterSendBinlog` (mpov.cpp:148-156):
a multi-bulk of length `2*N + 2` holding `applybinlogs`, the destination
store id, and each row's encoded key and value. -/
def frameBatch (dstStoreId : Nat) (binlogs : List ReplLog) : String :=
  fmtMultiBulkLen (binlogs.length * 2 + 2) ++ fmtBulk "applybinlogs"
    ++ fmtBulk (toString dstStoreId)
    ++ String.join (binlogs.map (fun v => fmtBulk v.encKey ++ fmtBulk v.encVal))

/-- The write-timeout selection of `ReplManager::masterSendBinlog`
(mpov.cpp:158-163), kept branch for branch: `secs` starts at 1, is set
to 2 when the serialized frame exceeds 1 MiB, and the `> 10 MiB` arm
sits in the `else` of the first test. -/
def writeTimeoutSecs (size : Nat) : Nat :=
  if 1024 * 1024 < size then 2
  else if 1024 * 1024 * 10 < size then 4
  else 1

/-- Modelled from the spec: the write timeout scales with payload size,
1 s for at most 1 MiB, 2 s on (1 MiB, 10 MiB], 4 s above 10 MiB. -/
def specWriteTimeoutSecs (size : Nat) : Nat :=
  if size ≤ 1024 * 1024 then 1
  else if size ≤ 10 * 1024 * 1024 then 2
  else 4

/-- What one successful `ReplManager::masterSendBinlog` call produces:
the assembled batch, the frame written to the wire, the timeout chosen
for the write, and the returned new position (mpov.cpp:101-182; the
network write and the `+OK` acknowledgement are assumed to succeed). -/
structure SendResult where
  batch : List ReplLog
  frame : String
  timeoutSecs : Nat
  newPos : Nat
deriving DecidableEq

/-- `ReplManager::masterSendBinlog` on a store whose binlog is `binlog`:
open a cursor at `binlogPos + 1`, gather a batch, frame it, pick the
write timeout from the frame size, and return the last gathered row's
`txnId` (or `binlogPos` when the batch is empty, mpov.cpp:177-181). -/
def masterSendBinlog (binlog : List ReplLog) (dstStoreId binlogPos : Nat) :
    SendResult :=
  let batch := gather (cursorFrom binlog (binlogPos + 1)) 0 0 0
  let frame := frameBatch dstStoreId batch
  { batch := batch
    frame := frame
    timeoutSecs := writeTimeoutSecs frame.length
    newPos :=
      match batch.getLast? with
      | none => binlogPos
      | some r => r.txnId }

/-- The bookkeeping fields of one `MPovStatus` entry (repl_manager.h via
mpov.cpp:260-268); the socket and `nextSchedTime` are outside the
embedding. -/
structure MPovStatus where
  isRunning : Bool
  dstStoreId : Nat
  binlogPos : Nat
  clientId : Nat
deriving DecidableEq

/-- The successful path of `ReplManager::masterPushRoutine`
(mpov.cpp:90-98): the entry's `binlogPos` is assigned the value returned
by `masterSendBinlog`. -/
def masterPushRoutineStep (binlog : List ReplLog) (e : MPovStatus) :
    MPovStatus :=
  { e with binlogPos := (masterSendBinlog binlog e.dstStoreId e.binlogPos).newPos }

/-- `fuel` successive successful push iterations starting at position
`pos`; returns the concatenation of the batches sent on the wire. -/
def pushIterations (binlog : List ReplLog) (dst : Nat) :
    Nat → Nat → List ReplLog
  | 0, _ => []
  | fuel + 1, pos =>
    let res := masterSendBinlog binlog dst pos
    res.batch ++ pushIterations binlog dst fuel res.newPos

/-- Modelled from the spec: `stoul` applied to a handshake argument,
parsing a decimal unsigned integer; on parse failure the handshake
replies `-ERR parse opts failed`. -/
def parseNat (s : String) : Option Nat :=
  if s.data.isEmpty then none
  else if s.data.all Char.isDigit then
    some (s.data.foldl (fun n c => n * 10 + (c.toNat - 48)) 0)
  else none

/-- The observable outcome of `ReplManager::registerIncrSync`
(mpov.cpp:195-273). -/
inductive RegisterResult where
  | errParseOpts
  | errInvalidStoreId
  | errInvalidBinlogPos
  | handshakeFailed
  | rejectedAtRecheck
  | registered (entry : MPovStatus)
deriving DecidableEq

/-- `ReplManager::registerIncrSync` (mpov.cpp:195-273).  `instanceNum`
stands for `KVStore::INSTANCE_NUM` (modelled from the spec: store ids
live in `[0, INSTANCE_NUM)`); `firstPosPre` and `firstPosRecheck` are
the values of `_firstBinlogId[storeId]` read at the optimistic pre-check
and at the re-check under the mutex; `pongReply` is the line the slave
sends after the master's `+OK` (`none` when the read fails);
`newClientId` is the id `_clientIdGen` hands out. -/
def registerIncrSync (instanceNum : Nat)
    (storeIdArg dstStoreIdArg binlogPosArg : String)
    (firstPosPre firstPosRecheck : Nat)
    (pongReply : Option String) (newClientId : Nat) : RegisterResult :=
  match parseNat storeIdArg, parseNat dstStoreIdArg, parseNat binlogPosArg with
  | some storeId, some dstStoreId, some binlogPos =>
    if instanceNum ≤ storeId ∨ instanceNum ≤ dstStoreId then
      .errInvalidStoreId
    else if binlogPos < firstPosPre then .errInvalidBinlogPos
    else
      match pongReply with
      | none => .handshakeFailed
      | some line =>
        if line ≠ "+PONG" then .handshakeFailed
        else if binlogPos < firstPosRecheck then .rejectedAtRecheck
        else .registered ⟨false, dstStoreId, binlogPos, newClientId⟩
  | _, _, _ => .errParseOpts

/-- Outcome of streaming one backup file in
`ReplManager::supplyFullSyncRoutine` (mpov.cpp:317-347): the filename
line write, the file open, the chunked read and the chunk write can each
fail. -/
inductive FileOutcome where
  | ok
  | writeNameFail
  | openFail
  | readFail
  | writeDataFail
deriving DecidableEq

/-- The environment a `supplyFullSyncRoutine` run faces: whether the
store is running, what `store->backup()` returns (modelled from the
spec: a file manifest or an error message), whether the manifest line
write succeeds, the per-file streaming outcomes (files beyond the list
succeed), and whether the final `readLine` succeeds. -/
structure FullSyncEnv where
  storeRunning : Bool
  backupResult : Except String (List (String × Nat))
  manifestWriteOk : Bool
  outcomes : List FileOutcome
  finalReadOk : Bool

/-- What a `supplyFullSyncRoutine` run did: the error line written
before streaming (if any), whether `store->releaseBackup()` ran, whether
the manifest line went out, how many files were fully streamed, and
whether streaming ran to completion. -/
structure FullSyncResult where
  errorReply : Option String
  released : Bool
  manifestSent : Bool
  filesFullySent : Nat
  streamOk : Bool
deriving DecidableEq

/-- The per-file streaming loop of `supplyFullSyncRoutine`
(mpov.cpp:317-347): files are sent in manifest order and the first
failure aborts the loop; returns how many files were fully sent and
whether all were. -/
def streamFiles : List (String × Nat) → List FileOutcome → Nat × Bool
  | [], _ => (0, true)
  | _f :: fs, outs =>
    match outs with
    | [] =>
      let r := streamFiles fs []
      (r.1 + 1, r.2)
    | o :: rest =>
      match o with
      | .ok =>
        let r := streamFiles fs rest
        (r.1 + 1, r.2)
      | _ => (0, false)

/-- `ReplManager::supplyFullSyncRoutine` (mpov.cpp:275-357).  The scope
guard releasing the backup is installed right after `store->backup()`
succeeds (mpov.cpp:292-298), so every later exit path — manifest write
failure, any per-file failure, and the success path including the final
`readLine` whatever its outcome — reports `released = true`. -/
def supplyFullSyncRoutine (env : FullSyncEnv) : FullSyncResult :=
  if ¬ env.storeRunning then
    { errorReply := some "-ERR store is not running"
      released := false, manifestSent := false
      filesFullySent := 0, streamOk := false }
  else
    match env.backupResult with
    | .error msg =>
      { errorReply := some ("-ERR backup failed:" ++ msg)
        released := false, manifestSent := false
        filesFullySent := 0, streamOk := false }
    | .ok files =>
      if ¬ env.manifestWriteOk then
        { errorReply := none
          released := true, manifestSent := false
          filesFullySent := 0, streamOk := false }
      else
        let r := streamFiles files env.outcomes
        { errorReply := none
          released := true, manifestSent := true
          filesFullySent := r.1, streamOk := r.2 }

/-- The `txnId` of the last row of `l`, or `nowId` when `l` is empty:
the transaction the batching loop is inside after having appended `l`. -/
def lastTxn (nowId : Nat) (l : List ReplLog) : Nat :=
  match l.getLast? with
  | none => nowId
  | some r => r.txnId

/-! ## Helper lemmas about the batching loop -/

theorem lastTxn_cons (w : Nat) (r : ReplLog) (l : List ReplLog) :
    lastTxn w (r :: l) = lastTxn r.txnId l := by
  cases l with
  | nil => simp [lastTxn]
  | cons b t =>
    cases hg : (b :: t).getLast? with
    | none => simp at hg
    | some x =>
      unfold lastTxn
      rw [List.getLast?_cons_cons, hg]

/-- The batch is an initial segment of what the cursor had left. -/
theorem gather_decomp (stream : List ReplLog) :
    ∀ cnt nowId est, ∃ rest, stream = gather stream cnt nowId est ++ rest := by
  induction stream with
  | nil => exact fun _ _ _ => ⟨[], rfl⟩
  | cons r s ih =>
    intro cnt nowId est
    by_cases hb : nowId = 0 ∨ nowId ≠ r.txnId
    · by_cases ht : suggestBatch ≤ cnt + 1 ∨ suggestBytes ≤ est + r.opSize
      · refine ⟨r :: s, ?_⟩
        simp only [gather]
        rw [if_pos hb, if_pos ht, List.nil_append]
      · obtain ⟨rest, hrest⟩ := ih (cnt + 1) r.txnId (est + r.opSize)
        refine ⟨rest, ?_⟩
        simp only [gather]
        rw [if_pos hb, if_neg ht, List.cons_append]
        exact congrArg (r :: ·) hrest
    · obtain ⟨rest, hrest⟩ := ih (cnt + 1) nowId (est + r.opSize)
      refine ⟨rest, ?_⟩
      simp only [gather]
      rw [if_neg hb, List.cons_append]
      exact congrArg (r :: ·) hrest

/-- Boundary invariant of the batching loop: as long as every row carries
a nonzero `txnId` and the loop is inside a nonzero transaction, the first
row left unconsumed after the loop never continues the transaction the
batch ends in. -/
theorem gather_boundary (stream : List ReplLog)
    (h : ∀ r ∈ stream, r.txnId ≠ 0) :
    ∀ cnt nowId est, nowId ≠ 0 → ∀ rest trig,
      stream = gather stream cnt nowId est ++ rest →
      rest.head? = some trig →
      trig.txnId ≠ lastTxn nowId (gather stream cnt nowId est) := by
  induction stream with
  | nil =>
    intro cnt nowId est hnow rest trig hdec hhead
    rw [show gather [] cnt nowId est = [] from rfl, List.nil_append] at hdec
    rw [← hdec] at hhead
    simp at hhead
  | cons r s ih =>
    intro cnt nowId est hnow rest trig hdec hhead
    have hmem : ∀ x ∈ s, x.txnId ≠ 0 := fun x hx => h x (List.mem_cons_of_mem r hx)
    by_cases hb : nowId = 0 ∨ nowId ≠ r.txnId
    · by_cases ht : suggestBatch ≤ cnt + 1 ∨ suggestBytes ≤ est + r.opSize
      · have hg : gather (r :: s) cnt nowId est = [] := by
          simp only [gather]; rw [if_pos hb, if_pos ht]
        rw [hg, List.nil_append] at hdec
        rw [hg]
        rw [← hdec] at hhead
        simp only [List.head?_cons, Option.some.injEq] at hhead
        subst hhead
        have hne : nowId ≠ r.txnId := hb.resolve_left hnow
        simpa [lastTxn] using hne.symm
      · have hg : gather (r :: s) cnt nowId est =
            r :: gather s (cnt + 1) r.txnId (est + r.opSize) := by
          simp only [gather]; rw [if_pos hb, if_neg ht]
        rw [hg] at hdec ⊢
        rw [List.cons_append, List.cons.injEq] at hdec
        rw [lastTxn_cons]
        exact ih hmem (cnt + 1) r.txnId (est + r.opSize)
          (h r (List.mem_cons_self r s)) rest trig hdec.2 hhead
    · push_neg at hb
      obtain ⟨hn0, hEq⟩ := hb
      have hg : gather (r :: s) cnt nowId est =
          r :: gather s (cnt + 1) nowId (est + r.opSize) := by
        simp only [gather]
        rw [if_neg (by push_neg; exact ⟨hn0, hEq⟩)]
      rw [hg] at hdec ⊢
      rw [List.cons_append, List.cons.injEq] at hdec
      rw [lastTxn_cons, ← hEq]
      exact ih hmem (cnt + 1) nowId (est + r.opSize) hnow rest trig hdec.2 hhead

/-- Boundary invariant at the loop's entry state (`cnt = nowId = est = 0`):
when the batch is nonempty, the first unconsumed row starts a different
transaction from the one the batch ends in. -/
theorem gather_top_boundary (stream : List ReplLog)
    (h : ∀ r ∈ stream, r.txnId ≠ 0) (rest : List ReplLog) (trig tl : ReplLog)
    (hdec : stream = gather stream 0 0 0 ++ rest)
    (hhead : rest.head? = some trig)
    (hlast : (gather stream 0 0 0).getLast? = some tl) :
    trig.txnId ≠ tl.txnId := by
  cases stream with
  | nil => simp [show gather [] 0 0 0 = [] from rfl] at hlast
  | cons r s =>
    by_cases ht : suggestBatch ≤ 0 + 1 ∨ suggestBytes ≤ 0 + r.opSize
    · have hg : gather (r :: s) 0 0 0 = [] := by
        simp only [gather]; rw [if_pos (Or.inl trivial), if_pos ht]
      rw [hg] at hlast
      simp at hlast
    · have hg : gather (r :: s) 0 0 0 =
          r :: gather s (0 + 1) r.txnId (0 + r.opSize) := by
        simp only [gather]; rw [if_pos (Or.inl trivial), if_neg ht]
      rw [hg] at hdec hlast
      rw [List.cons_append, List.cons.injEq] at hdec
      have hL : lastTxn 0 (r :: gather s (0 + 1) r.txnId (0 + r.opSize)) = tl.txnId := by
        unfold lastTxn
        rw [hlast]
      rw [lastTxn_cons] at hL
      have := gather_boundary s
        (fun x hx => h x (List.mem_cons_of_mem r hx)) (0 + 1) r.txnId
        (0 + r.opSize) (h r (List.mem_cons_self r s)) rest trig hdec.2 hhead
      rw [hL] at this
      exact this

theorem mem_cursorFrom {x : ReplLog} {binlog : List ReplLog} {fromId : Nat} :
    x ∈ cursorFrom binlog fromId ↔ x ∈ binlog ∧ fromId ≤ x.txnId := by
  simp [cursorFrom, List.mem_filter]

theorem batch_eq_gather (binlog : List ReplLog) (dst pos : Nat) :
    (masterSendBinlog binlog dst pos).batch =
      gather (cursorFrom binlog (pos + 1)) 0 0 0 := rfl

theorem newPos_eq (binlog : List ReplLog) (dst pos : Nat) :
    (masterSendBinlog binlog dst pos).newPos =
      match (masterSendBinlog binlog dst pos).batch.getLast? with
      | none => pos
      | some r => r.txnId := rfl

theorem cursorFrom_txnId_ne_zero {binlog : List ReplLog} {pos : Nat} :
    ∀ r ∈ cursorFrom binlog (pos + 1), r.txnId ≠ 0 := by
  intro r hr
  have := (mem_cursorFrom.mp hr).2
  omega

/-- The batch a send produces is an initial segment of the cursor's
yield, and when nonempty it ends at a transaction boundary. -/
theorem batch_decomp (binlog : List ReplLog) (dst pos : Nat) :
    ∃ rest,
      cursorFrom binlog (pos + 1) = (masterSendBinlog binlog dst pos).batch ++ rest ∧
      ∀ trig tl, rest.head? = some trig →
        (masterSendBinlog binlog dst pos).batch.getLast? = some tl →
        trig.txnId ≠ tl.txnId := by
  obtain ⟨rest, hdec⟩ := gather_decomp (cursorFrom binlog (pos + 1)) 0 0 0
  rw [batch_eq_gather]
  exact ⟨rest, hdec, fun trig tl hh hl =>
    gather_top_boundary _ cursorFrom_txnId_ne_zero rest trig tl hdec hh hl⟩

/-- The position a send returns never lies below the position it
started from. -/
theorem le_newPos (binlog : List ReplLog) (dst pos : Nat) :
    pos ≤ (masterSendBinlog binlog dst pos).newPos := by
  rw [newPos_eq]
  cases hl : (masterSendBinlog binlog dst pos).batch.getLast? with
  | none => exact Nat.le_refl pos
  | some r =>
    have hr : r ∈ (masterSendBinlog binlog dst pos).batch :=
      List.mem_of_mem_getLast? (Option.mem_def.mpr hl)
    obtain ⟨rest, hdec, -⟩ := batch_decomp binlog dst pos
    have hrc : r ∈ cursorFrom binlog (pos + 1) := by
      rw [hdec]; exact List.mem_append_left rest hr
    have := (mem_cursorFrom.mp hrc).2
    exact Nat.le_of_succ_le this

/-- In a `txnId`-sorted list every element's `txnId` is bounded by the
last element's. -/
theorem pairwise_le_getLast :
    ∀ {l : List ReplLog}, l.Pairwise (fun a b => a.txnId ≤ b.txnId) →
      ∀ x ∈ l, ∀ tl, l.getLast? = some tl → x.txnId ≤ tl.txnId := by
  intro l
  induction l with
  | nil => intro _ x hx; simp at hx
  | cons a t ih =>
    intro hp x hx tl hl
    rw [List.pairwise_cons] at hp
    cases t with
    | nil =>
      simp only [List.getLast?_singleton, Option.some.injEq] at hl
      simp only [List.mem_singleton] at hx
      subst hl; subst hx
      exact Nat.le_refl _
    | cons b t' =>
      rw [List.getLast?_cons_cons] at hl
      rcases List.mem_cons.mp hx with hxa | hxt
      · subst hxa
        have htl : tl ∈ b :: t' :=
          List.mem_of_mem_getLast? (Option.mem_def.mpr hl)
        exact hp.1 tl htl
      · exact ih hp.2 x hxt tl hl

/-- On a sorted binlog, a cursor opened just past the position a
nonempty batch reports yields exactly the rows the previous send left
unconsumed. -/
theorem cursor_shift (binlog : List ReplLog) (dst pos : Nat)
    (hs : binlog.Pairwise (fun a b => a.txnId ≤ b.txnId))
    (tl : ReplLog)
    (hl : (masterSendBinlog binlog dst pos).batch.getLast? = some tl) :
    ∃ rest,
      cursorFrom binlog (pos + 1) = (masterSendBinlog binlog dst pos).batch ++ rest ∧
      cursorFrom binlog (tl.txnId + 1) = rest := by
  obtain ⟨rest, hdec, hbnd⟩ := batch_decomp binlog dst pos
  refine ⟨rest, hdec, ?_⟩
  have hsp : (cursorFrom binlog (pos + 1)).Pairwise (fun a b => a.txnId ≤ b.txnId) :=
    List.Pairwise.filter _ hs
  rw [hdec] at hsp
  obtain ⟨hpb, hpr, hcross⟩ := List.pairwise_append.mp hsp
  have htlmem : tl ∈ (masterSendBinlog binlog dst pos).batch :=
    List.mem_of_mem_getLast? (Option.mem_def.mpr hl)
  have ha : ∀ x ∈ (masterSendBinlog binlog dst pos).batch, x.txnId ≤ tl.txnId :=
    fun x hx => pairwise_le_getLast hpb x hx tl hl
  have hb : ∀ x ∈ rest, tl.txnId + 1 ≤ x.txnId := by
    cases rest with
    | nil => intro x hx; simp at hx
    | cons trig t =>
      have hne := hbnd trig tl rfl hl
      have hle : tl.txnId ≤ trig.txnId :=
        hcross tl htlmem trig (List.mem_cons_self trig t)
      intro x hx
      rcases List.mem_cons.mp hx with hxa | hxt
      · subst hxa; omega
      · have := (List.pairwise_cons.mp hpr).1 x hxt
        omega
  have h1 : cursorFrom binlog (tl.txnId + 1) =
      (cursorFrom binlog (pos + 1)).filter (fun r => decide (tl.txnId + 1 ≤ r.txnId)) := by
    have htlpos : pos + 1 ≤ tl.txnId := by
      have : tl ∈ cursorFrom binlog (pos + 1) := by
        rw [hdec]; exact List.mem_append_left rest htlmem
      exact (mem_cursorFrom.mp this).2
    unfold cursorFrom
    rw [List.filter_filter]
    apply List.filter_congr
    intro a _
    by_cases hp : tl.txnId + 1 ≤ a.txnId
    · have hq : pos + 1 ≤ a.txnId := by omega
      simp [hp, hq]
    · simp [hp]
  rw [h1, hdec, List.filter_append]
  have h2 : (masterSendBinlog binlog dst pos).batch.filter
      (fun r => decide (tl.txnId + 1 ≤ r.txnId)) = [] := by
    apply List.filter_eq_nil_iff.mpr
    intro x hx
    simp only [decide_eq_true_eq]
    have := ha x hx
    omega
  have h3 : rest.filter (fun r => decide (tl.txnId + 1 ≤ r.txnId)) = rest := by
    apply List.filter_eq_self.mpr
    intro x hx
    simp only [decide_eq_true_eq]
    exact hb x hx
  rw [h2, h3, List.nil_append]

/-- When every row's payload is below `suggestBytes` and the cursor has
rows left, the batch is nonempty: the first row read is appended. -/
theorem batch_progress (binlog : List ReplLog) (dst pos : Nat)
    (hsize : ∀ r ∈ binlog, r.opSize < suggestBytes)
    (hne : cursorFrom binlog (pos + 1) ≠ []) :
    (masterSendBinlog binlog dst pos).batch ≠ [] := by
  rw [batch_eq_gather]
  cases hc : cursorFrom binlog (pos + 1) with
  | nil => exact absurd hc hne
  | cons r s =>
    have hr : r ∈ binlog := (mem_cursorFrom.mp (hc ▸ List.mem_cons_self r s)).1
    have hsz := hsize r hr
    have h64 : suggestBatch = 64 := rfl
    have hthr : ¬ (suggestBatch ≤ 0 + 1 ∨ suggestBytes ≤ 0 + r.opSize) := by
      push_neg
      exact ⟨by omega, by omega⟩
    simp only [gather]
    rw [if_pos (Or.inl trivial), if_neg hthr]
    simp

/-! ## Equation lemmas for the registration handshake -/

theorem registerIncrSync_parsed (iN : Nat) {a b c : String} {s d p : Nat}
    (hA : parseNat a = some s) (hB : parseNat b = some d)
    (hC : parseNat c = some p)
    (fPre fRe : Nat) (pong : Option String) (cid : Nat) :
    registerIncrSync iN a b c fPre fRe pong cid =
      (if iN ≤ s ∨ iN ≤ d then .errInvalidStoreId
       else if p < fPre then .errInvalidBinlogPos
       else match pong with
         | none => .handshakeFailed
         | some line =>
           if line ≠ "+PONG" then .handshakeFailed
           else if p < fRe then .rejectedAtRecheck
           else .registered ⟨false, d, p, cid⟩) := by
  unfold registerIncrSync
  rw [hA, hB, hC]

theorem registerIncrSync_noparse (iN : Nat) {a b c : String}
    (h : parseNat a = none ∨ parseNat b = none ∨ parseNat c = none)
    (fPre fRe : Nat) (pong : Option String) (cid : Nat) :
    registerIncrSync iN a b c fPre fRe pong cid = .errParseOpts := by
  unfold registerIncrSync
  cases hA : parseNat a <;> cases hB : parseNat b <;> cases hC : parseNat c <;>
    simp_all

/-! ## Concrete scenarios -/

/-- 70 single-row transactions with txnIds 1..70, 1-byte payloads each. -/
def binlog70 : List ReplLog := (List.range 70).map (fun i => ⟨i + 1, 1, "k", "v"⟩)

/-- Steady-state scenario: rows `(txn 10, a)`, `(txn 10, b)`, `(txn 11, c)`. -/
def scenarioA : List ReplLog :=
  [⟨10, 1, "k1", "v1"⟩, ⟨10, 1, "k2", "v2"⟩, ⟨11, 1, "k3", "v3"⟩]

/-- A registered replica of store 0 sitting at position 9. -/
def entryScenarioA : MPovStatus := ⟨false, 0, 9, 1⟩

/-- One transaction (txnId 5) of three 10 MiB rows. -/
def oversizeTxn : List ReplLog :=
  [⟨5, 10 * 1024 * 1024, "k1", "v1"⟩, ⟨5, 10 * 1024 * 1024, "k2", "v2"⟩,
   ⟨5, 10 * 1024 * 1024, "k3", "v3"⟩]

/-- A single row whose payload alone reaches `suggestBytes`. -/
def stallRow : ReplLog := ⟨1, suggestBytes, "k", "v"⟩

/-- A row carrying the sentinel txnId 0. -/
def zeroRow : ReplLog := ⟨0, 1, "k", "v"⟩

/-! ## Claim theorems -/

/-- C1, counterexample: with 70 single-row txns 1..70 of 1 byte each and a
replica at position 0, the first `masterSendBinlog` batch does NOT hold 64
rows and does NOT return position 64: the row of txn 64 trips the count
threshold at its transaction boundary and is excluded from the batch. -/
theorem firstBatch70_not_sixtyfour :
    ((masterSendBinlog binlog70 0 0).batch.length = 64 ∧
     (masterSendBinlog binlog70 0 0).newPos = 64) = False :=
  eq_false (by decide)

/-- C1, amended: for a store holding 70 single-row transactions with txnIds
1..70 (1 byte payload each) and a replica at binlogPos 0, the first
`masterSendBinlog` batch holds exactly 63 rows, covering txns 1 through 63,
and returns new position 63 (the 64th row is read, trips `cnt >=
suggestBatch`, and is left for the next invocation). -/
theorem firstBatch70_is_sixtythree :
    (masterSendBinlog binlog70 0 0).batch.map ReplLog.txnId =
      (List.range 63).map (fun i => i + 1) ∧
    (masterSendBinlog binlog70 0 0).batch.length = 63 ∧
    (masterSendBinlog binlog70 0 0).newPos = 63 := by
  decide

/-- C2: the write-timeout tiering is broken in the code: because the
`> 10 MiB` test sits in the `else` of the `> 1 MiB` test, a 30 MiB frame is
written with a 2-second timeout (the spec's tiering says 4 s) and no frame
size ever selects the 4-second tier; `masterSendBinlog` applies
`writeTimeoutSecs` to the serialized frame. -/
theorem writeTimeout_shadowed_tier :
    writeTimeoutSecs (30 * 1024 * 1024) = 2 ∧
    specWriteTimeoutSecs (30 * 1024 * 1024) = 4 ∧
    (∀ n, writeTimeoutSecs n ≠ 4) ∧
    (∀ binlog dst pos, (masterSendBinlog binlog dst pos).timeoutSecs =
      writeTimeoutSecs (masterSendBinlog binlog dst pos).frame.length) := by
  refine ⟨by decide, by decide, ?_, fun _ _ _ => rfl⟩
  intro n
  unfold writeTimeoutSecs
  split_ifs with h1 h2 <;> omega

/-- C3: no intra-transaction split: every batch `masterSendBinlog` produces
is an initial segment of the cursor's yield and, when nonempty, the first
row left unconsumed starts a transaction different from the one the batch
ends in (rows of one txnId are never divided across two batches); in
particular one transaction of three 10 MiB rows is emitted whole as a
single 30 MiB batch even though it exceeds `suggestBytes`. -/
theorem no_intra_txn_split :
    (∀ binlog dst pos, ∃ rest,
      cursorFrom binlog (pos + 1) = (masterSendBinlog binlog dst pos).batch ++ rest ∧
      ∀ trig tl, rest.head? = some trig →
        (masterSendBinlog binlog dst pos).batch.getLast? = some tl →
        trig.txnId ≠ tl.txnId) ∧
    (masterSendBinlog oversizeTxn 0 4).batch = oversizeTxn ∧
    (masterSendBinlog oversizeTxn 0 4).newPos = 5 :=
  ⟨batch_decomp, by decide, by decide⟩

/-- C4: steady-state incremental push: with store rows
`[(txn 10, a), (txn 10, b), (txn 11, c)]` and a replica at binlogPos 9, one
push sends a single multi-bulk `applybinlogs` frame holding all three rows
(the cursor starts at 10 and the batch ends on the txn-11 boundary), the
returned position is 11, and the entry's `binlogPos` becomes 11. -/
theorem steady_state_push :
    (masterSendBinlog scenarioA 0 9).batch = scenarioA ∧
    (masterSendBinlog scenarioA 0 9).frame =
      "*8\r\n$12\r\napplybinlogs\r\n$1\r\n0\r\n$2\r\nk1\r\n$2\r\nv1\r\n$2\r\nk2\r\n$2\r\nv2\r\n$2\r\nk3\r\n$2\r\nv3\r\n" ∧
    (masterSendBinlog scenarioA 0 9).newPos = 11 ∧
    (masterPushRoutineStep scenarioA entryScenarioA).binlogPos = 11 := by
  decide

/-- C5: batch result position: for every successful `masterSendBinlog` call
from `pos`, a nonempty batch makes the returned position the txnId of the
batch's last row, and a cursor exhausted at the first read leaves an empty
batch that is still framed (and sent) while the returned position equals
`pos`. -/
theorem newPos_of_batch :
    ∀ binlog dst pos,
      (∀ tl, (masterSendBinlog binlog dst pos).batch.getLast? = some tl →
        (masterSendBinlog binlog dst pos).newPos = tl.txnId) ∧
      (cursorFrom binlog (pos + 1) = [] →
        (masterSendBinlog binlog dst pos).batch = [] ∧
        (masterSendBinlog binlog dst pos).newPos = pos ∧
        (masterSendBinlog binlog dst pos).frame = frameBatch dst []) := by
  intro binlog dst pos
  constructor
  · intro tl hl
    rw [newPos_eq, hl]
  · intro hc
    have hbatch : (masterSendBinlog binlog dst pos).batch = [] := by
      rw [batch_eq_gather, hc]
      rfl
    have hf : (masterSendBinlog binlog dst pos).frame =
        frameBatch dst (masterSendBinlog binlog dst pos).batch := rfl
    exact ⟨hbatch, by rw [newPos_eq, hbatch, List.getLast?_nil],
      by rw [hf, hbatch]⟩

/-- C6: registration conditions: `registerIncrSync` produces a registered
entry iff the three arguments parse, both ids are below `INSTANCE_NUM`,
`firstBinlogId ≤ binlogPos` holds at the pre-check and at the re-check, and
the slave replied exactly `+PONG`; a pre-check failure (with parse and
range checks passed) replies `-ERR invalid binlogPos`; a created entry
starts with `isRunning = false` and the requested `binlogPos`. -/
theorem registerIncrSync_conditions :
    ∀ (instanceNum : Nat) (a b c : String) (fPre fRe : Nat)
      (pong : Option String) (cid : Nat),
      ((∃ e, registerIncrSync instanceNum a b c fPre fRe pong cid =
          .registered e) ↔
        (∃ s d p, parseNat a = some s ∧ parseNat b = some d ∧
          parseNat c = some p ∧ s < instanceNum ∧ d < instanceNum ∧
          fPre ≤ p ∧ fRe ≤ p ∧ pong = some "+PONG")) ∧
      (∀ s d p, parseNat a = some s → parseNat b = some d →
        parseNat c = some p → s < instanceNum → d < instanceNum →
        p < fPre →
        registerIncrSync instanceNum a b c fPre fRe pong cid =
          .errInvalidBinlogPos) ∧
      (∀ e, registerIncrSync instanceNum a b c fPre fRe pong cid =
          .registered e →
        e.isRunning = false ∧ parseNat c = some e.binlogPos) := by
  intro iN a b c fPre fRe pong cid
  have main : ∀ e, registerIncrSync iN a b c fPre fRe pong cid = .registered e ↔
      (∃ s d p, parseNat a = some s ∧ parseNat b = some d ∧
        parseNat c = some p ∧ s < iN ∧ d < iN ∧
        fPre ≤ p ∧ fRe ≤ p ∧ pong = some "+PONG" ∧
        e = ⟨false, d, p, cid⟩) := by
    intro e
    constructor
    · intro he
      cases hA : parseNat a with
      | none =>
        rw [registerIncrSync_noparse iN (Or.inl hA)] at he
        exact absurd he (by simp)
      | some s =>
      cases hB : parseNat b with
      | none =>
        rw [registerIncrSync_noparse iN (Or.inr (Or.inl hB))] at he
        exact absurd he (by simp)
      | some d =>
      cases hC : parseNat c with
      | none =>
        rw [registerIncrSync_noparse iN (Or.inr (Or.inr hC))] at he
        exact absurd he (by simp)
      | some p =>
      rw [registerIncrSync_parsed iN hA hB hC] at he
      by_cases h1 : iN ≤ s ∨ iN ≤ d
      · rw [if_pos h1] at he; exact absurd he (by simp)
      · rw [if_neg h1] at he
        by_cases h2 : p < fPre
        · rw [if_pos h2] at he; exact absurd he (by simp)
        · rw [if_neg h2] at he
          cases pong with
          | none => exact absurd he (by simp)
          | some line =>
            replace he : (if line ≠ "+PONG" then RegisterResult.handshakeFailed
                else if p < fRe then RegisterResult.rejectedAtRecheck
                else RegisterResult.registered ⟨false, d, p, cid⟩) =
                RegisterResult.registered e := he
            by_cases h3 : line ≠ "+PONG"
            · rw [if_pos h3] at he; exact absurd he (by simp)
            · rw [if_neg h3] at he
              by_cases h4 : p < fRe
              · rw [if_pos h4] at he; exact absurd he (by simp)
              · rw [if_neg h4] at he
                push_neg at h1 h3
                refine ⟨s, d, p, rfl, rfl, rfl, by omega, by omega, by omega,
                  by omega, by rw [h3], ?_⟩
                simp only [RegisterResult.registered.injEq] at he
                exact he.symm
    · rintro ⟨s, d, p, hA, hB, hC, hs, hd, hpre, hre, hpong, hE⟩
      subst hpong
      rw [registerIncrSync_parsed iN hA hB hC, hE]
      rw [if_neg (by omega : ¬ (iN ≤ s ∨ iN ≤ d)),
        if_neg (by omega : ¬ p < fPre)]
      show (if ("+PONG" : String) ≠ "+PONG" then RegisterResult.handshakeFailed
          else if p < fRe then RegisterResult.rejectedAtRecheck
          else RegisterResult.registered ⟨false, d, p, cid⟩) =
        RegisterResult.registered ⟨false, d, p, cid⟩
      rw [if_neg (by simp), if_neg (by omega : ¬ p < fRe)]
  refine ⟨?_, ?_, ?_⟩
  · constructor
    · rintro ⟨e, he⟩
      obtain ⟨s, d, p, h⟩ := (main e).mp he
      exact ⟨s, d, p, h.1, h.2.1, h.2.2.1, h.2.2.2.1, h.2.2.2.2.1,
        h.2.2.2.2.2.1, h.2.2.2.2.2.2.1, h.2.2.2.2.2.2.2.1⟩
    · rintro ⟨s, d, p, hA, hB, hC, hs, hd, hpre, hre, hpong⟩
      exact ⟨⟨false, d, p, cid⟩,
        (main _).mpr ⟨s, d, p, hA, hB, hC, hs, hd, hpre, hre, hpong, rfl⟩⟩
  · intro s d p hA hB hC hs hd hpre
    rw [registerIncrSync_parsed iN hA hB hC]
    rw [if_neg (by omega : ¬ (iN ≤ s ∨ iN ≤ d)), if_pos hpre]
  · intro e he
    obtain ⟨s, d, p, h⟩ := (main e).mp he
    have hE := h.2.2.2.2.2.2.2.2
    subst hE
    exact ⟨rfl, h.2.2.1⟩

/-- C7: monotonic progress: a `masterSendBinlog` call never returns a
position below the one it started from, and over any number of successful
push iterations an entry's `binlogPos` is non-decreasing. -/
theorem binlogPos_monotone :
    (∀ binlog dst pos, pos ≤ (masterSendBinlog binlog dst pos).newPos) ∧
    (∀ binlog (e : MPovStatus) (k : Nat),
      e.binlogPos ≤ ((masterPushRoutineStep binlog)^[k] e).binlogPos) := by
  refine ⟨le_newPos, ?_⟩
  intro binlog e k
  induction k generalizing e with
  | zero => exact Nat.le_refl _
  | succ k ih =>
    rw [Function.iterate_succ_apply]
    exact Nat.le_trans (le_newPos binlog e.dstStoreId e.binlogPos)
      (ih (masterPushRoutineStep binlog e))

/-- C8: backup release: once `store->backup()` has succeeded,
`releaseBackup` runs on every exit path of `supplyFullSyncRoutine`
(manifest write failure, any per-file open/read/write failure, and the
success path whatever the final read yields); when `backup()` fails the
routine replies `-ERR backup failed:<msg>` and streams nothing. -/
theorem fullSync_release_guard :
    ∀ env : FullSyncEnv,
      (∀ files, env.backupResult = .ok files →
        env.storeRunning = true →
        (supplyFullSyncRoutine env).released = true) ∧
      (∀ msg, env.backupResult = .error msg →
        env.storeRunning = true →
        (supplyFullSyncRoutine env).errorReply =
          some ("-ERR backup failed:" ++ msg) ∧
        (supplyFullSyncRoutine env).released = false ∧
        (supplyFullSyncRoutine env).manifestSent = false ∧
        (supplyFullSyncRoutine env).filesFullySent = 0) := by
  intro env
  constructor
  · intro files hok hrun
    simp only [supplyFullSyncRoutine, hok, hrun]
    split_ifs <;> simp_all
  · intro msg herr hrun
    simp only [supplyFullSyncRoutine, herr, hrun]
    split_ifs <;> simp_all

/-- C9, counterexample: a binlog whose single row carries a payload of
`suggestBytes` (16 MiB) makes every push iteration gather an empty batch
and return the unchanged position, so five successful iterations deliver
nothing although the binlog is nonempty. -/
theorem push_stall_sixteen_mib :
    pushIterations [stallRow] 0 5 0 = [] ∧
    ([stallRow] : List ReplLog) ≠ [] ∧
    (masterSendBinlog [stallRow] 0 0).batch = [] ∧
    (masterSendBinlog [stallRow] 0 0).newPos = 0 := by
  decide

/-- C9, amended: on a binlog with nondecreasing txnIds all of whose rows
carry payloads below `suggestBytes`, running at least as many successful
push iterations as the cursor has rows delivers, in order and exactly once,
every binlog row past the starting position (the threshold-triggering row
is excluded from its batch but re-read by the next invocation). -/
theorem pushIterations_cover (binlog : List ReplLog) (dst : Nat) :
    ∀ fuel pos, binlog.Pairwise (fun a b => a.txnId ≤ b.txnId) →
      (∀ r ∈ binlog, r.opSize < suggestBytes) →
      (cursorFrom binlog (pos + 1)).length ≤ fuel →
      pushIterations binlog dst fuel pos = cursorFrom binlog (pos + 1) := by
  intro fuel
  induction fuel with
  | zero =>
    intro pos _ _ hlen
    have hc : cursorFrom binlog (pos + 1) = [] :=
      List.length_eq_zero.mp (Nat.le_zero.mp hlen)
    rw [hc]
    rfl
  | succ fuel ih =>
    intro pos hs hsize hlen
    show (masterSendBinlog binlog dst pos).batch ++
        pushIterations binlog dst fuel (masterSendBinlog binlog dst pos).newPos =
        cursorFrom binlog (pos + 1)
    by_cases hc : cursorFrom binlog (pos + 1) = []
    · have hbatch : (masterSendBinlog binlog dst pos).batch = [] := by
        rw [batch_eq_gather, hc]
        rfl
      have hnp : (masterSendBinlog binlog dst pos).newPos = pos := by
        rw [newPos_eq, hbatch, List.getLast?_nil]
      rw [hbatch, hnp, List.nil_append,
        ih pos hs hsize (by rw [hc]; exact Nat.zero_le fuel)]
    · have hbne := batch_progress binlog dst pos hsize hc
      cases hl : (masterSendBinlog binlog dst pos).batch.getLast? with
      | none => exact absurd (List.getLast?_eq_none_iff.mp hl) hbne
      | some tl =>
        obtain ⟨rest, hdec, hshift⟩ := cursor_shift binlog dst pos hs tl hl
        have hnp : (masterSendBinlog binlog dst pos).newPos = tl.txnId := by
          rw [newPos_eq, hl]
        have hlenrest : rest.length ≤ fuel := by
          have hlens := congrArg List.length hdec
          rw [List.length_append] at hlens
          have hb1 : 0 < (masterSendBinlog binlog dst pos).batch.length :=
            List.length_pos.mpr hbne
          omega
        rw [hnp, ih tl.txnId hs hsize (by rw [hshift]; exact hlenrest), hshift]
        exact hdec.symm

/-- C9, witness: three iterations on the steady-state scenario from
position 9 deliver exactly the cursor's yield. -/
theorem pushIterations_cover_witness :
    pushIterations scenarioA 0 3 9 = cursorFrom scenarioA (9 + 1) :=
  pushIterations_cover scenarioA 0 3 9 (by decide) (by decide) (by decide)

/-- C10: txnId 0 is a sentinel: the batching loop treats every row with
txnId 0 as opening a new transaction, so 64 rows all sharing txnId 0 are
split (63 gathered, the 64th left behind); under the precondition that all
txnIds in the stream are nonzero, the batch-boundary guarantee holds. -/
theorem txnId_zero_sentinel :
    gather (List.replicate 64 zeroRow) 0 0 0 = List.replicate 63 zeroRow ∧
    (List.replicate 64 zeroRow).drop 63 = [zeroRow] ∧
    (∀ stream : List ReplLog, (∀ r ∈ stream, r.txnId ≠ 0) →
      ∀ rest trig tl, stream = gather stream 0 0 0 ++ rest →
        rest.head? = some trig → (gather stream 0 0 0).getLast? = some tl →
        trig.txnId ≠ tl.txnId) :=
  ⟨by decide, by decide,
    fun stream h rest trig tl => gather_top_boundary stream h rest trig tl⟩

end Tendis
